import Mathlib

/-!
Verification development for the `Base` state-stabilization engine
(`src/Base.ts`): an ordered hook store, a fixpoint-seeking run loop with a
pending-update queue, effect dependency diffing, a snapshot recorder, a
namespaced output aggregator, and (spec-modelled) an extension registry.

The engine is shallowly embedded: the mutable `Base` instance becomes the
`Engine` structure, every capability accessor becomes a pure function
`Engine → ... × Engine`, and the `while` loop of `Base.run` becomes a
fuel-indexed structural recursion (`runLoop`) whose fuel equals
`maxIterations - iterations`, exactly mirroring the loop condition
`hasChanges && iterations < this.maxIterations`.

Hook values are modelled by `Val` (JS `undefined` plus integers); `!==` on
these primitives is plain decidable disequality.  JS `NaN` (whose `!==` is
irreflexive) does not occur in any modelled scenario and is outside `Val`.
Setter/dispatcher closures capture the hook slot they were created for; a
slot is identified by its position in the hook store, so a queued update
`() => { hook.value = newValue }` is modelled as the pair
`(slot index, value computed at enqueue time)`.
-/

/-- JS values stored in hooks: `undefined` or a primitive number.
`!==` between such values is decidable disequality. -/
inductive Val
  | undefV
  | int (n : Int)
deriving DecidableEq, Repr

/-- `SetStateAction<T> = T | ((prev: T) => T)`: either a direct value or a
functional update.  `typeof action === 'function'` is the match on the
constructor. -/
inductive SetStateAction
  | value (v : Val)
  | fn (f : Val → Val)

/-- The tagged hook variants of the hook store (`Hook` union in Base.ts).
Effect callbacks and cleanups are opaque side-effecting closures; they are
modelled by numeric codes whose invocations are recorded in a log. -/
inductive Hook
  | state (value : Val)
  | reducerH (value : Val) (reducerFn : Val → Val → Val)
  | ref (current : Val)
  | effect (callback : Nat) (deps : Option (List Val)) (cleanup : Option Nat) (hasRun : Bool)
  | input (value : Val)
  | outputObject (namespace_ : String) (key : String) (value : Val) (enabled : Bool)
  | outputArray (namespace_ : String) (key : String) (value : Val) (enabled : Bool)

/-- Serialized hook record stored in a snapshot (`HookSnapshot`). -/
inductive HookSnapshot
  | state (index : Nat) (value : Val)
  | reducer (index : Nat) (value : Val)
  | ref (index : Nat) (current : Val)
  | effect (index : Nat) (deps : Option (List Val)) (hasRun : Bool)
  | input (index : Nat) (value : Val)
  | outputObject (index : Nat) (namespace_ : String) (key : String) (value : Val) (enabled : Bool)
  | outputArray (index : Nat) (namespace_ : String) (key : String) (value : Val) (enabled : Bool)
deriving DecidableEq, Repr

/-- `FunctionSnapshot`.  `Date.now()` is modelled as the constant 0: no claim
depends on wall-clock time. -/
structure Snapshot where
  iteration : Nat
  timestamp : Nat
  hooks : List HookSnapshot
deriving DecidableEq, Repr

/-- An observable event of the effect runner: invocation of an effect
callback or of a stored cleanup closure (identified by their codes). -/
inductive EffEvent
  | runCb (code : Nat)
  | runCleanup (code : Nat)
deriving DecidableEq, Repr

/-- A value in the aggregated output mapping: either a hook value or an
array created by the aggregator for append-mode entries. -/
inductive OutVal
  | scalar (v : Val)
  | arr (vs : List Val)
deriving DecidableEq, Repr

/-- `Record<string, Record<string, any>>`, as an insertion-ordered
association list (JS object property order for string keys). -/
abbrev Output := List (String × List (String × OutVal))

/-- The `Base` instance state.  `hasRenderFn` models whether
`this.renderFn` is set (the function itself is passed to `run` as a
parameter); `outputLog` records the arguments of every output-callback
invocation; `effectLog` records effect/cleanup invocations. -/
structure Engine where
  hooks : List Hook
  currentHookIndex : Nat
  isRunning : Bool
  pendingUpdates : List (Nat × Val)
  snapshots : List Snapshot
  inputValue : Val
  hasRenderFn : Bool
  hasOutputCallback : Bool
  outputLog : List Output
  effectLog : List EffEvent

/-- A user render function, already closed over the capability API of one
engine instance. -/
abbrev RenderFn := Engine → Engine

/-- `this.maxIterations`. -/
def maxIterations : Nat := 1000

/-- Reading `hook.value` as a JS property access: `ref` and `effect` hooks
have no `value` property, so the access yields `undefined`. -/
def hookValue : Hook → Val
  | .state v => v
  | .reducerH v _ => v
  | .ref _ => .undefV
  | .effect _ _ _ _ => .undefV
  | .input v => v
  | .outputObject _ _ v _ => v
  | .outputArray _ _ v _ => v

/-- Writing `hook.value = v`.  On `ref`/`effect` hooks JS would create a
stray `value` property; that only happens after a call-order violation
(declared caller error in the spec), which no modelled scenario performs,
so those hooks are left unchanged here. -/
def setHookValue (v : Val) : Hook → Hook
  | .state _ => .state v
  | .reducerH _ r => .reducerH v r
  | .ref c => .ref c
  | .effect cb d cl hr => .effect cb d cl hr
  | .input _ => .input v
  | .outputObject ns k _ en => .outputObject ns k v en
  | .outputArray ns k _ en => .outputArray ns k v en

/-- In-place update of the list element at position `i` (mutation of
`this.hooks[i]`). -/
def modifyAt (i : Nat) (f : Hook → Hook) : List Hook → List Hook
  | [] => []
  | h :: t =>
    match i with
    | 0 => f h :: t
    | i + 1 => h :: modifyAt i f t

/-- `this.hooks[idx].value`, `undefined` when the slot does not exist. -/
def hookValueAt (e : Engine) (idx : Nat) : Val :=
  match e.hooks.get? idx with
  | some h => hookValue h
  | none => .undefV

/-- Resolve a `SetStateAction` against the previous value
(`typeof action === 'function' ? action(prev) : action`). -/
def applyAction (action : SetStateAction) (prev : Val) : Val :=
  match action with
  | .value v => v
  | .fn f => f prev

/-- Write `hook.value = v` for the slot `idx` of the store. -/
def writeHookValue (e : Engine) (idx : Nat) (v : Val) : Engine :=
  { e with hooks := modifyAt idx (setHookValue v) e.hooks }

/-- Body of the `setState` closure created by `defState`.  `rerun` stands
for the captured `this.run.bind(this)`: it is consulted only on the
not-currently-running branch (every in-pass call has `isRunning = true`,
see `setStateBody_running`). -/
def setStateBody (rerun : Engine → Engine) (idx : Nat) (action : SetStateAction)
    (e : Engine) : Engine :=
  let current := hookValueAt e idx
  let newValue := applyAction action current
  if newValue = current then e
  else if e.isRunning then
    { e with pendingUpdates := e.pendingUpdates ++ [(idx, newValue)] }
  else rerun (writeHookValue e idx newValue)

/-- The setter as used from inside a pass, where `isRunning` is true and
the rerun continuation is never consulted. -/
def setStateR (idx : Nat) (action : SetStateAction) (e : Engine) : Engine :=
  setStateBody (fun e' => e') idx action e

/-- `Base.defState`: advance the position counter, initialize the slot on
first visit, return the stored value together with the slot index that
identifies the setter closure. -/
def defState (initialValue : Val) (e : Engine) : (Val × Nat) × Engine :=
  let hookIndex := e.currentHookIndex
  let e1 := { e with currentHookIndex := hookIndex + 1 }
  let e2 :=
    if e1.hooks.length ≤ hookIndex then
      { e1 with hooks := e1.hooks ++ [Hook.state initialValue] }
    else e1
  ((hookValueAt e2 hookIndex, hookIndex), e2)

/-- Body of the `dispatch` closure created by `defReducer`: applies the
reducer stored in the slot to the stored value and the action. -/
def dispatchBody (rerun : Engine → Engine) (idx : Nat) (action : Val)
    (e : Engine) : Engine :=
  match e.hooks.get? idx with
  | some (.reducerH v r) =>
    let newValue := r v action
    if newValue = v then e
    else if e.isRunning then
      { e with pendingUpdates := e.pendingUpdates ++ [(idx, newValue)] }
    else rerun (writeHookValue e idx newValue)
  | _ => e

/-- The dispatcher as used from inside a pass. -/
def dispatchR (idx : Nat) (action : Val) (e : Engine) : Engine :=
  dispatchBody (fun e' => e') idx action e

/-- `Base.defReducer`: the reducer function is stored only when the slot is
first created; later visits neither read nor replace it. -/
def defReducer (reducerFn : Val → Val → Val) (initialState : Val) (e : Engine) :
    (Val × Nat) × Engine :=
  let hookIndex := e.currentHookIndex
  let e1 := { e with currentHookIndex := hookIndex + 1 }
  let e2 :=
    if e1.hooks.length ≤ hookIndex then
      { e1 with hooks := e1.hooks ++ [Hook.reducerH initialState reducerFn] }
    else e1
  ((hookValueAt e2 hookIndex, hookIndex), e2)

/-- `Base.defRef`.  The returned mutable cell is identified by its slot
index; mutating `current` never signals a re-run. -/
def defRef (initialValue : Val) (e : Engine) : Nat × Engine :=
  let hookIndex := e.currentHookIndex
  let e1 := { e with currentHookIndex := hookIndex + 1 }
  let e2 :=
    if e1.hooks.length ≤ hookIndex then
      { e1 with hooks := e1.hooks ++ [Hook.ref initialValue] }
    else e1
  (hookIndex, e2)

/-- Dependency diffing of `Base.defEffect`:
`!deps || !hook.deps || deps.length !== hook.deps.length ||
 deps.some((dep, i) => dep !== hook.deps![i])`. -/
def depsChanged (newDeps oldDeps : Option (List Val)) : Bool :=
  match newDeps, oldDeps with
  | none, _ => true
  | some _, none => true
  | some d, some d0 =>
    if d.length = d0.length then
      (d.zip d0).any (fun p => if p.1 = p.2 then false else true)
    else true

/-- `Base.defEffect`: create the slot on first visit; otherwise replace the
callback unconditionally and, when the dependencies changed, store the new
list and reset `hasRun` (marking the effect for re-execution).  The
comparison happens here, at the accessor, not in the runner. -/
def defEffect (cb : Nat) (deps : Option (List Val)) (e : Engine) : Engine :=
  let hookIndex := e.currentHookIndex
  let e1 := { e with currentHookIndex := hookIndex + 1 }
  if e1.hooks.length ≤ hookIndex then
    { e1 with hooks := e1.hooks ++ [Hook.effect cb deps none false] }
  else
    match e1.hooks.get? hookIndex with
    | some (.effect _ deps0 cl hasRun) =>
      let newHook :=
        if depsChanged deps deps0 then Hook.effect cb deps cl false
        else Hook.effect cb deps0 cl hasRun
      { e1 with hooks := modifyAt hookIndex (fun _ => newHook) e1.hooks }
    | _ => e1

/-- `Base.defInput`: refresh the slot from `this.inputValue` on every visit
and return it. -/
def defInput (e : Engine) : Val × Engine :=
  let hookIndex := e.currentHookIndex
  let e1 := { e with currentHookIndex := hookIndex + 1 }
  let e2 :=
    if e1.hooks.length ≤ hookIndex then
      { e1 with hooks := e1.hooks ++ [Hook.input e1.inputValue] }
    else e1
  let e3 := { e2 with hooks := modifyAt hookIndex (setHookValue e2.inputValue) e2.hooks }
  (hookValueAt e3 hookIndex, e3)

/-- Update of namespace/key/value performed on every visit of an output
accessor (`hook.namespace = namespace; hook.key = key; hook.value = value`).
Non-output hooks are reachable only after a call-order violation and are
left unchanged. -/
def updOutputFields (ns k : String) (v : Val) : Hook → Hook
  | .outputObject _ _ _ en => .outputObject ns k v en
  | .outputArray _ _ _ en => .outputArray ns k v en
  | h => h

/-- `Base.defOutputObject` (overwrite-mode entry).  The returned handle is
identified by the slot index. -/
def defOutputObject (ns k : String) (v : Val) (e : Engine) : Nat × Engine :=
  let hookIndex := e.currentHookIndex
  let e1 := { e with currentHookIndex := hookIndex + 1 }
  let e2 :=
    if e1.hooks.length ≤ hookIndex then
      { e1 with hooks := e1.hooks ++ [Hook.outputObject ns k v true] }
    else e1
  (hookIndex, { e2 with hooks := modifyAt hookIndex (updOutputFields ns k v) e2.hooks })

/-- `Base.defOutputArray` (append-mode entry). -/
def defOutputArray (ns k : String) (v : Val) (e : Engine) : Nat × Engine :=
  let hookIndex := e.currentHookIndex
  let e1 := { e with currentHookIndex := hookIndex + 1 }
  let e2 :=
    if e1.hooks.length ≤ hookIndex then
      { e1 with hooks := e1.hooks ++ [Hook.outputArray ns k v true] }
    else e1
  (hookIndex, { e2 with hooks := modifyAt hookIndex (updOutputFields ns k v) e2.hooks })

/-- `hook.enabled = b` on an output hook. -/
def setEnabled (b : Bool) : Hook → Hook
  | .outputObject ns k v _ => .outputObject ns k v b
  | .outputArray ns k v _ => .outputArray ns k v b
  | h => h

/-- `enable()` on an output handle. -/
def enableOutput (idx : Nat) (e : Engine) : Engine :=
  { e with hooks := modifyAt idx (setEnabled true) e.hooks }

/-- `disable()` on an output handle. -/
def disableOutput (idx : Nat) (e : Engine) : Engine :=
  { e with hooks := modifyAt idx (setEnabled false) e.hooks }

/-- Serialization of one hook for the snapshot (`Base.serializeHook`).
Values of type `Val` are immutable primitives here, for which
`this.deepCopy` is the identity; the aliasing behaviour of `deepCopy` on
mutable objects is modelled separately on the heap model below. -/
def serializeHook (h : Hook) (index : Nat) : HookSnapshot :=
  match h with
  | .state v => .state index v
  | .reducerH v _ => .reducer index v
  | .ref c => .ref index c
  | .effect _ deps _ hasRun => .effect index deps hasRun
  | .input v => .input index v
  | .outputObject ns k v en => .outputObject index ns k v en
  | .outputArray ns k v en => .outputArray index ns k v en

/-- `Base.captureSnapshot`: append a record of every hook, tagged with the
iteration index. -/
def captureSnapshot (iteration : Nat) (e : Engine) : Engine :=
  { e with snapshots := e.snapshots ++
      [{ iteration := iteration, timestamp := 0,
         hooks := e.hooks.enum.map (fun p => serializeHook p.2 p.1) }] }

/-- Apply a queue of pending updates in enqueue order: each entry directly
overwrites the captured slot with the value computed at enqueue time. -/
def applyQ (hs : List Hook) (q : List (Nat × Val)) : List Hook :=
  q.foldl (fun hs' p => modifyAt p.1 (setHookValue p.2) hs') hs

/-- `this.pendingUpdates.forEach(update => update()); this.pendingUpdates = []`. -/
def applyPendingUpdates (e : Engine) : Engine :=
  { e with hooks := applyQ e.hooks e.pendingUpdates, pendingUpdates := [] }

/-- One step of `this.hooks.forEach` in `Base.runEffects`: run cleanup and
callback of an effect whose `hasRun` is false; if the callback's result is
a function (`cbRes cb = some c`), store it as the new cleanup. -/
def runEffectStep (cbRes : Nat → Option Nat) : Hook → Hook × List EffEvent
  | .effect cb deps cl false =>
    let cleanupLog := match cl with | some c => [EffEvent.runCleanup c] | none => []
    let newCl := match cbRes cb with | some c => some c | none => cl
    (.effect cb deps newCl true, cleanupLog ++ [EffEvent.runCb cb])
  | h => (h, [])

/-- `Base.runEffects` over the hook list, in position order. -/
def runEffectsGo (cbRes : Nat → Option Nat) : List Hook → List Hook × List EffEvent
  | [] => ([], [])
  | h :: t =>
    let (h', logH) := runEffectStep cbRes h
    let (t', logT) := runEffectsGo cbRes t
    (h' :: t', logH ++ logT)

/-- `Base.runEffects`. -/
def runEffects (cbRes : Nat → Option Nat) (e : Engine) : Engine :=
  let (hooks', log) := runEffectsGo cbRes e.hooks
  { e with hooks := hooks', effectLog := e.effectLog ++ log }

/-- JS truthiness of a `Val` (`!v` in `if (!output[ns][key])`):
`undefined` and `0` are falsy. -/
def truthy : Val → Bool
  | .undefV => false
  | .int n => if n = 0 then false else true

/-- Read `output[ns]`. -/
def getNs (out : Output) (ns : String) : Option (List (String × OutVal)) :=
  (out.find? (fun p => p.1 = ns)).map (fun p => p.2)

/-- Read `output[ns][k]`. -/
def getKey (out : Output) (ns k : String) : Option OutVal :=
  match getNs out ns with
  | none => none
  | some rec0 => (rec0.find? (fun p => p.1 = k)).map (fun p => p.2)

/-- Assign `rec[k] = v` on a JS object: update in place if present,
otherwise append (insertion order). -/
def setKeyIn (rec0 : List (String × OutVal)) (k : String) (v : OutVal) :
    List (String × OutVal) :=
  if rec0.any (fun p => p.1 = k) then
    rec0.map (fun p => if p.1 = k then (k, v) else p)
  else rec0 ++ [(k, v)]

/-- Assign `output[ns][k] = v`, creating `output[ns]` when absent. -/
def setKey (out : Output) (ns k : String) (v : OutVal) : Output :=
  if out.any (fun p => p.1 = ns) then
    out.map (fun p => if p.1 = ns then (ns, setKeyIn p.2 k v) else p)
  else out ++ [(ns, setKeyIn [] k v)]

/-- One step of `this.hooks.forEach` in `Base.buildOutput`.  For an enabled
append-mode entry: `if (!output[ns][key]) output[ns][key] = [];
if (Array.isArray(output[ns][key])) output[ns][key].push(value)` — a falsy
existing scalar is replaced by a fresh array, a truthy scalar blocks the
push, an existing array receives the value. -/
def outputStep (out : Output) (h : Hook) : Output :=
  match h with
  | .outputObject ns k v true => setKey out ns k (.scalar v)
  | .outputArray ns k v true =>
    let out1 :=
      match getKey out ns k with
      | none => setKey out ns k (.arr [])
      | some (.scalar w) => if truthy w then out else setKey out ns k (.arr [])
      | some (.arr _) => out
    match getKey out1 ns k with
    | some (.arr vs) => setKey out1 ns k (.arr (vs ++ [v]))
    | _ => out1
  | _ => out

/-- `Base.buildOutput`: fold the enabled output entries, in hook-store
position order, into the two-level mapping. -/
def buildOutput (e : Engine) : Output :=
  e.hooks.foldl outputStep []

/-- The stabilization loop of `Base.run`, with
`fuel = maxIterations - iterations` so that the JS condition
`hasChanges && iterations < this.maxIterations` is `hasChanges` together
with `fuel > 0`.  Returns the engine and the final `iterations` counter
(which counts invocations of the user function). -/
def runLoop (rf : RenderFn) : Nat → Nat → Bool → Engine → Engine × Nat
  | 0, iterations, _, e => (e, iterations)
  | fuel + 1, iterations, hasChanges, e =>
    if hasChanges then
      let e1 := { e with currentHookIndex := 0, isRunning := true, pendingUpdates := [] }
      let e2 := rf e1
      let e3 := { e2 with isRunning := false }
      let e4 := captureSnapshot iterations e3
      if e4.pendingUpdates.isEmpty then
        runLoop rf fuel (iterations + 1) false e4
      else
        runLoop rf fuel (iterations + 1) true (applyPendingUpdates e4)
    else (e, iterations)

/-- The iteration-limit failure of `Base.run`. -/
inductive RunError
  | maxIterationsReached
deriving DecidableEq, Repr

/-- `Base.run`: drive the loop; if the iteration ceiling was reached, throw
(returning the engine as left at the last applied update batch, with no
effects and no output callback); otherwise run effects and, when an output
callback is registered, invoke it with the built output. -/
def run (rf : RenderFn) (cbRes : Nat → Option Nat) (e : Engine) :
    Engine × Option RunError :=
  if e.hasRenderFn then
    let (e1, iterations) := runLoop rf maxIterations 0 true e
    if maxIterations ≤ iterations then (e1, some RunError.maxIterationsReached)
    else
      let e2 := runEffects cbRes e1
      if e2.hasOutputCallback then
        ({ e2 with outputLog := e2.outputLog ++ [buildOutput e2] }, none)
      else (e2, none)
  else (e, none)

/-- `Base.setFn`: store the render function and run. -/
def setFn (rf : RenderFn) (cbRes : Nat → Option Nat) (e : Engine) :
    Engine × Option RunError :=
  run rf cbRes { e with hasRenderFn := true }

/-- `Base.update`: externally triggered re-run. -/
def update (rf : RenderFn) (cbRes : Nat → Option Nat) (e : Engine) :
    Engine × Option RunError :=
  run rf cbRes e

/-- `Base.onOutput`: register the output callback. -/
def onOutput (e : Engine) : Engine :=
  { e with hasOutputCallback := true }

/-- Whether a hook is an output entry. -/
def isOutputHook : Hook → Bool
  | .outputObject _ _ _ _ => true
  | .outputArray _ _ _ _ => true
  | _ => false

/-- `Base.clearOutputHooks`: drop exactly the output entries. -/
def clearOutputHooks (e : Engine) : Engine :=
  { e with hooks := e.hooks.filter (fun h => !(isOutputHook h)) }

/-- `Base.setInput`: store the input, discard output entries, re-run when a
render function is set. -/
def setInput (rf : RenderFn) (cbRes : Nat → Option Nat) (input : Val) (e : Engine) :
    Engine × Option RunError :=
  let e1 := { e with inputValue := input }
  let e2 := clearOutputHooks e1
  if e2.hasRenderFn then run rf cbRes e2 else (e2, none)

/-- A freshly constructed `Base` instance. -/
def engine0 : Engine :=
  { hooks := [], currentHookIndex := 0, isRunning := false, pendingUpdates := [],
    snapshots := [], inputValue := .undefV, hasRenderFn := false,
    hasOutputCallback := false, outputLog := [], effectLog := [] }

/-- `engine0` with the render function installed (the engine as seen by the
loop inside `setFn`). -/
def engine0Fn : Engine :=
  { engine0 with hasRenderFn := true }

/-- Effect-callback semantics for scenarios without effects. -/
def noCb : Nat → Option Nat := fun _ => none

/-- JS `v < n` for a hook value: `undefined < n` is false. -/
def vltNat (v : Val) (n : Int) : Bool :=
  match v with
  | .int m => decide (m < n)
  | .undefV => false

/-- `v + k` on an integer hook value (only applied to integer values in the
modelled scenarios). -/
def vadd (v : Val) (k : Int) : Val :=
  match v with
  | .int m => .int (m + k)
  | .undefV => .undefV

/-- C1 scenario: `const [count, setCount] = defState(0);
if (count < 3) setCount(count + 1);`. -/
def countRender : RenderFn := fun e =>
  let r := defState (Val.int 0) e
  if vltNat r.1.1 3 then setStateR r.1.2 (SetStateAction.value (vadd r.1.1 1)) r.2
  else r.2

/-- A value different from every value: `flipVal v ≠ v` for all `v`. -/
def flipVal : Val → Val := fun v =>
  if v = Val.int 0 then Val.int 1 else Val.int 0

/-- C2 scenario: a user function that queues a change on every pass (the
functional update always produces a different value). -/
def flipRender : RenderFn := fun e =>
  let r := defState (Val.int 0) e
  setStateR r.1.2 (SetStateAction.fn flipVal) r.2

/-- C3 scenario: a function that always sets the state slot to its current
value. -/
def idemRender : RenderFn := fun e =>
  let r := defState (Val.int 5) e
  setStateR r.1.2 (SetStateAction.value r.1.1) r.2

/-- C5 scenario: two functional-form updates to the same slot within one
pass (`set(c => c + 1); set(c => c + 10)`), guarded so the run stabilizes. -/
def twoSetRender : RenderFn := fun e =>
  let r := defState (Val.int 0) e
  if r.1.1 = Val.int 0 then
    setStateR r.1.2 (SetStateAction.fn (fun v => vadd v 10))
      (setStateR r.1.2 (SetStateAction.fn (fun v => vadd v 1)) r.2)
  else r.2

/-- C6 scenario: one overwrite-mode output bound to the input value. -/
def ioRender : RenderFn := fun e =>
  let r := defInput e
  (defOutputObject "ns" "k" r.1 r.2).2

/-- The last value queued for slot `idx` in `q`, defaulting to `w`. -/
def lastQueued (q : List (Nat × Val)) (idx : Nat) (w : Val) : Val :=
  q.foldl (fun acc p => if p.1 = idx then p.2 else acc) w

/-- The dependency list of an effect hook (`none` for other hooks). -/
def hookDeps : Hook → Option (Option (List Val))
  | .effect _ d _ _ => some d
  | _ => none

/-- C6 pipeline: register the callback, set the function (first run), then
supply input `X = 10` and input `Y = 20`. -/
def c6s1 : Engine × Option RunError := setFn ioRender noCb (onOutput engine0)

/-- C6 pipeline after `setInput(X)`. -/
def c6s2 : Engine × Option RunError := setInput ioRender noCb (Val.int 10) c6s1.1

/-- C6 pipeline after `setInput(Y)`. -/
def c6s3 : Engine × Option RunError := setInput ioRender noCb (Val.int 20) c6s2.1

/-- A reducer adding the action to the state. -/
def addReducer : Val → Val → Val := fun s a =>
  match s, a with
  | .int m, .int n => .int (m + n)
  | _, _ => .undefV

/-- A reducer subtracting the action from the state (a different function
passed on a later visit, which the slot must ignore). -/
def subReducer : Val → Val → Val := fun s a =>
  match s, a with
  | .int m, .int n => .int (m - n)
  | _, _ => .undefV

/-- Concrete engine for the C3 witness: one state slot holding `5`. -/
def ec3 : Engine :=
  { engine0 with hooks := [Hook.state (Val.int 5)], isRunning := true }

/-- Concrete engine for the C3/C9 witnesses: one reducer slot. -/
def ec9 : Engine :=
  { engine0 with hooks := [Hook.reducerH (Val.int 4) addReducer], isRunning := true }

/-- Concrete engine for the C4 witness: one effect slot that ran on the
previous pass with deps `[1]`. -/
def ec4 : Engine :=
  { engine0 with hooks := [Hook.effect 7 (some [Val.int 1]) none true], isRunning := true }

/-- Concrete engine for the C6 witness: a mixed hook store. -/
def ec6 : Engine :=
  { engine0 with hooks :=
      [Hook.state (Val.int 1), Hook.outputObject "a" "b" (Val.int 2) true,
       Hook.input (Val.int 3)] }

/-- C10: an overwrite entry whose value `0` is falsy, followed by an
append entry on the same namespace/key. -/
def e10falsy : Engine :=
  { engine0 with hooks :=
      [Hook.outputObject "a" "k" (Val.int 0) true,
       Hook.outputArray "a" "k" (Val.int 5) true] }

/-- C10: the same shape with a truthy overwrite value `7`. -/
def e10truthy : Engine :=
  { engine0 with hooks :=
      [Hook.outputObject "a" "k" (Val.int 7) true,
       Hook.outputArray "a" "k" (Val.int 5) true] }

/-!
### Heap model for `Base.deepCopy` / `Base.serializeHook` (claim C7)

Snapshot immunity to later mutation is about object identity, so these two
functions are modelled over an explicit heap: a `JVal` is a primitive or a
reference into a list of `JObj` nodes (JS arrays, Maps, Sets, Dates and
plain objects).  Allocation appends to the heap; mutation is `List.set`.
`deepCopy` recurses through values; the recursion is fueled because the JS
original would not terminate on cyclic objects either (stack overflow).
-/

/-- A JS value: a primitive or a reference to a heap object. -/
inductive JVal
  | prim (n : Int)
  | ref (a : Nat)
deriving DecidableEq, Repr

/-- A JS heap object: one of the structured cases `Base.deepCopy`
recognizes. -/
inductive JObj
  | arr (elems : List JVal)
  | mapObj (entries : List (JVal × JVal))
  | setObj (elems : List JVal)
  | dateObj (time : Int)
  | plain (fields : List (String × JVal))
deriving DecidableEq, Repr

/-- The heap: addresses are list positions. -/
abbrev Heap := List JObj

/-- The address of a reference value, if any. -/
def refOf : JVal → Option Nat
  | .ref a => some a
  | .prim _ => none

/-- The key values of an object (`Map` keys, which `deepCopy` shares
instead of cloning). -/
def keyVals : JObj → List JVal
  | .mapObj ps => ps.map (fun p => p.1)
  | _ => []

/-- The child values `deepCopy` recursively clones: array/set elements,
`Map` values, plain-object field values; a `Date` has none. -/
def childVals : JObj → List JVal
  | .arr es => es
  | .setObj es => es
  | .dateObj _ => []
  | .mapObj ps => ps.map (fun p => p.2)
  | .plain fs => fs.map (fun p => p.2)

/-- Rebuild an object of the same shape from cloned children (`Map` keys
and plain-object field names are reused as-is). -/
def rebuild : JObj → List JVal → JObj
  | .arr _, ws => .arr ws
  | .setObj _, ws => .setObj ws
  | .dateObj t, _ => .dateObj t
  | .mapObj ps, ws => .mapObj ((ps.map (fun p => p.1)).zip ws)
  | .plain fs, ws => .plain ((fs.map (fun p => p.1)).zip ws)

/-- All addresses referenced directly by an object. -/
def refsL (vs : List JVal) : List Nat :=
  vs.filterMap refOf

/-- Addresses referenced by an object, keys included. -/
def objRefs (o : JObj) : List Nat :=
  refsL (keyVals o ++ childVals o)

/-- `Base.deepCopy` over a list of values, threading the heap: primitives
pass through; a reference is resolved, its children cloned recursively,
and a fresh object allocated.  `Map` keys are not cloned (the code copies
entries as `[k, this.deepCopy(v)]`). -/
def deepCopyL : Nat → Heap → List JVal → Option (Heap × List JVal)
  | 0, _, _ => none
  | _ + 1, h, [] => some (h, [])
  | fuel + 1, h, JVal.prim n :: vs =>
    (deepCopyL fuel h vs).map (fun r => (r.1, JVal.prim n :: r.2))
  | fuel + 1, h, JVal.ref a :: vs =>
    match h.get? a with
    | none => none
    | some obj =>
      match deepCopyL fuel h (childVals obj) with
      | none => none
      | some (h1, ws) =>
        match deepCopyL fuel (h1 ++ [rebuild obj ws]) vs with
        | none => none
        | some (h3, vs2) => some (h3, JVal.ref h1.length :: vs2)

/-- `Base.deepCopy` of one value. -/
def deepCopy (fuel : Nat) (h : Heap) (v : JVal) : Option (Heap × JVal) :=
  match deepCopyL fuel h [v] with
  | some (h2, [v2]) => some (h2, v2)
  | _ => none

/-- The pure denotation of a heap value: the tree a JS observer sees. -/
inductive PureVal
  | prim (n : Int)
  | parr (es : List PureVal)
  | pmap (ps : List (PureVal × PureVal))
  | pset (es : List PureVal)
  | pdate (t : Int)
  | pobj (fs : List (String × PureVal))

/-- Rebuild a pure tree node from denoted keys and children. -/
def rebuildPure : JObj → List PureVal → List PureVal → PureVal
  | .arr _, _, cs => .parr cs
  | .setObj _, _, cs => .pset cs
  | .dateObj t, _, _ => .pdate t
  | .mapObj _, ks, cs => .pmap (ks.zip cs)
  | .plain fs, _, cs => .pobj ((fs.map (fun p => p.1)).zip cs)

/-- Fueled denotation of heap values as pure trees (what an observer reads
from the live structure). -/
def denoteL : Nat → Heap → List JVal → Option (List PureVal)
  | 0, _, _ => none
  | _ + 1, _, [] => some []
  | fuel + 1, h, JVal.prim n :: vs =>
    (denoteL fuel h vs).map (fun ps => PureVal.prim n :: ps)
  | fuel + 1, h, JVal.ref a :: vs =>
    match h.get? a with
    | none => none
    | some obj =>
      match denoteL fuel h (keyVals obj), denoteL fuel h (childVals obj), denoteL fuel h vs with
      | some ks, some cs, some rest => some (rebuildPure obj ks cs :: rest)
      | _, _, _ => none

/-- Reachability check that every `Map` key along the copied structure is a
primitive (the case in which `deepCopy` produces a fully independent
copy). -/
def keysPrimL : Nat → Heap → List JVal → Bool
  | 0, _, _ => false
  | _ + 1, _, [] => true
  | fuel + 1, h, JVal.prim _ :: vs => keysPrimL fuel h vs
  | fuel + 1, h, JVal.ref a :: vs =>
    match h.get? a with
    | none => false
    | some obj =>
      (keyVals obj).all (fun k => (refOf k).isNone) &&
        keysPrimL fuel h (childVals obj) && keysPrimL fuel h vs

/-- The effect case of `Base.serializeHook`:
`deps: hook.deps ? [...hook.deps] : undefined` — the spread builds a new
list whose elements are the same references (no deep copy). -/
def serializeEffectDeps (deps : List JVal) : List JVal :=
  deps

/-- C7 counterexample heap: one array object `[1]`. -/
def heap7 : Heap := [JObj.arr [JVal.prim 1]]

/-- `heap7` after mutating the array to `[2]`. -/
def heap7m : Heap := heap7.set 0 (JObj.arr [JVal.prim 2])

/-- A live effect dependency list holding a reference to the array. -/
def depsLive : List JVal := [JVal.ref 0]

/-- C7 map-key heap: an array `[1]` used as the key of a Map entry. -/
def heap7map : Heap :=
  [JObj.arr [JVal.prim 1], JObj.mapObj [(JVal.ref 0, JVal.prim 9)]]

/-!
### Extension registry (claim C8)

`Base.extend` is referenced by `Prompt` and by the test suite but its
implementation is not part of the sources; the registry is modelled from
the spec (§4.6).
-/

/-- Modelled from the spec: an extension descriptor has an optional
one-time `init(engineInstance)` callback and a required `execute`
function.  Only the presence of `init` matters for the modelled claim. -/
structure ExtDescr where
  hasInit : Bool
deriving DecidableEq, Repr

/-- Modelled from the spec: the registration/initialization state of the
extension registry.  `initLog` records every `init` invocation. -/
structure ExtState where
  registry : List (String × ExtDescr)
  initDone : List String
  initLog : List String
deriving DecidableEq, Repr

/-- Modelled from the spec: register a named capability. -/
def extendWith (name : String) (d : ExtDescr) (s : ExtState) : ExtState :=
  { s with registry := s.registry ++ [(name, d)] }

/-- Modelled from the spec: invoking a registered capability runs its
`init` exactly on the first invocation of that name, then marks the name
as initialized; `execute` itself is outside this model. -/
def invokeCapability (name : String) (s : ExtState) : ExtState :=
  match s.registry.find? (fun p => p.1 = name) with
  | some (_, d) =>
    if d.hasInit ∧ ¬(name ∈ s.initDone) then
      { s with initDone := s.initDone ++ [name], initLog := s.initLog ++ [name] }
    else s
  | none => s

/-- Modelled from the spec: one run invokes a sequence of capabilities. -/
def runPass (names : List String) (s : ExtState) : ExtState :=
  names.foldl (fun acc n => invokeCapability n acc) s

/-- Modelled from the spec: a sequence of runs/re-runs. -/
def runSeq (runs : List (List String)) (s : ExtState) : ExtState :=
  runs.foldl (fun acc r => runPass r acc) s

/-- C8 witness state: one extension `defTracked` with an `init`. -/
def ext0 : ExtState :=
  { registry := [("defTracked", { hasInit := true })], initDone := [], initLog := [] }

/-! ### Helper lemmas -/

theorem modifyAt_get?_self (i : Nat) (f : Hook → Hook) (hs : List Hook) :
    (modifyAt i f hs).get? i = (hs.get? i).map f := by
  induction hs generalizing i with
  | nil => cases i <;> rfl
  | cons h t ih =>
    cases i with
    | zero => rfl
    | succ j => simpa [modifyAt] using ih j

theorem modifyAt_get?_ne (i j : Nat) (f : Hook → Hook) (hs : List Hook)
    (hij : i ≠ j) : (modifyAt j f hs).get? i = hs.get? i := by
  induction hs generalizing i j with
  | nil => cases j <;> rfl
  | cons h t ih =>
    cases j with
    | zero =>
      cases i with
      | zero => exact absurd rfl hij
      | succ k => rfl
    | succ j' =>
      cases i with
      | zero => rfl
      | succ k =>
        simpa [modifyAt] using ih k j' (fun hk => hij (by simp [hk]))

theorem get?_append_cons {x : Hook} (pre post : List Hook) :
    (pre ++ x :: post).get? pre.length = some x := by
  induction pre with
  | nil => rfl
  | cons h t ih => simpa using ih

theorem applyQ_get?_state (q : List (Nat × Val)) (hs : List Hook) (idx : Nat)
    (w : Val) (hget : hs.get? idx = some (Hook.state w)) :
    (applyQ hs q).get? idx = some (Hook.state (lastQueued q idx w)) := by
  induction q generalizing hs w with
  | nil => simpa [applyQ, lastQueued] using hget
  | cons p q' ih =>
    by_cases hp : p.1 = idx
    · have hstep : (modifyAt p.1 (setHookValue p.2) hs).get? idx
          = some (Hook.state p.2) := by
        rw [hp, modifyAt_get?_self, hget]
        rfl
      have := ih (modifyAt p.1 (setHookValue p.2) hs) p.2 hstep
      simpa [applyQ, lastQueued, hp] using this
    · have hstep : (modifyAt p.1 (setHookValue p.2) hs).get? idx
          = some (Hook.state w) := by
        rw [modifyAt_get?_ne idx p.1 _ _ (fun hk => hp hk.symm), hget]
      have := ih (modifyAt p.1 (setHookValue p.2) hs) w hstep
      simpa [applyQ, lastQueued, hp] using this

theorem runLoop_iterations_le (rf : RenderFn) (fuel iterations : Nat)
    (hc : Bool) (e : Engine) :
    iterations ≤ (runLoop rf fuel iterations hc e).2 := by
  induction fuel generalizing iterations hc e with
  | zero => simp [runLoop]
  | succ fuel ih =>
    by_cases h : hc = true
    · subst h
      simp only [runLoop, if_true]
      split
      · exact le_trans (Nat.le_succ _) (ih _ _ _)
      · exact le_trans (Nat.le_succ _) (ih _ _ _)
    · simp only [Bool.not_eq_true] at h
      subst h
      simp [runLoop]

theorem runLoop_snapshots_length (rf : RenderFn)
    (hsnap : ∀ e', (rf e').snapshots = e'.snapshots) (fuel : Nat) :
    ∀ (iterations : Nat) (hc : Bool) (e : Engine),
      (runLoop rf fuel iterations hc e).1.snapshots.length =
        e.snapshots.length + ((runLoop rf fuel iterations hc e).2 - iterations) := by
  induction fuel with
  | zero => intro iterations hc e; simp [runLoop]
  | succ fuel ih =>
    intro iterations hc e
    by_cases h : hc = true
    · subst h
      simp only [runLoop, if_true]
      split
      · rename_i hemp
        rw [ih]
        have hle := runLoop_iterations_le rf fuel (iterations + 1) false (captureSnapshot iterations { (rf { e with currentHookIndex := 0, isRunning := true, pendingUpdates := [] }) with isRunning := false })
        simp only [captureSnapshot, List.length_append, List.length_singleton, hsnap] at *
        omega
      · rename_i hemp
        rw [ih]
        have hle := runLoop_iterations_le rf fuel (iterations + 1) true (applyPendingUpdates (captureSnapshot iterations { (rf { e with currentHookIndex := 0, isRunning := true, pendingUpdates := [] }) with isRunning := false }))
        simp only [applyPendingUpdates, captureSnapshot, List.length_append, List.length_singleton, hsnap] at *
        omega
    · simp only [Bool.not_eq_true] at h
      subst h
      simp [runLoop]


theorem setStateR_outside (idx : Nat) (a : SetStateAction) (e : Engine) :
    (setStateR idx a e).snapshots = e.snapshots ∧
    (setStateR idx a e).effectLog = e.effectLog ∧
    (setStateR idx a e).outputLog = e.outputLog ∧
    (setStateR idx a e).isRunning = e.isRunning ∧
    (setStateR idx a e).currentHookIndex = e.currentHookIndex := by
  unfold setStateR setStateBody writeHookValue
  dsimp only
  split
  · exact ⟨rfl, rfl, rfl, rfl, rfl⟩
  · split
    · exact ⟨rfl, rfl, rfl, rfl, rfl⟩
    · exact ⟨rfl, rfl, rfl, rfl, rfl⟩

theorem defState_outside (v : Val) (e : Engine) :
    ((defState v e).2).snapshots = e.snapshots ∧
    ((defState v e).2).effectLog = e.effectLog ∧
    ((defState v e).2).outputLog = e.outputLog ∧
    ((defState v e).2).isRunning = e.isRunning ∧
    ((defState v e).2).pendingUpdates = e.pendingUpdates := by
  unfold defState
  dsimp only
  split
  · exact ⟨rfl, rfl, rfl, rfl, rfl⟩
  · exact ⟨rfl, rfl, rfl, rfl, rfl⟩

theorem flipVal_ne (v : Val) : flipVal v ≠ v := by
  by_cases h : v = Val.int 0
  · subst h; simp [flipVal]
  · simp [flipVal, h]
    exact fun hc => h hc.symm

theorem setStateR_queues (idx : Nat) (a : SetStateAction) (e : Engine)
    (hrun : e.isRunning = true)
    (hne : applyAction a (hookValueAt e idx) ≠ hookValueAt e idx) :
    setStateR idx a e =
      { e with pendingUpdates := e.pendingUpdates ++ [(idx, applyAction a (hookValueAt e idx))] } := by
  unfold setStateR setStateBody
  dsimp only
  rw [if_neg hne, if_pos hrun]

theorem flipRender_queues (e : Engine) (hrun : e.isRunning = true) :
    (flipRender e).pendingUpdates ≠ [] := by
  have h2 := defState_outside (Val.int 0) e
  have hrun2 : ((defState (Val.int 0) e).2).isRunning = true := by
    rw [h2.2.2.2.1]; exact hrun
  have hq := setStateR_queues (defState (Val.int 0) e).1.2 (SetStateAction.fn flipVal)
    ((defState (Val.int 0) e).2) hrun2
    (by exact flipVal_ne _)
  unfold flipRender
  rw [hq]
  simp

theorem flipRender_outside (e : Engine) :
    (flipRender e).effectLog = e.effectLog ∧ (flipRender e).outputLog = e.outputLog ∧
    (flipRender e).snapshots = e.snapshots := by
  unfold flipRender
  have h1 := setStateR_outside (defState (Val.int 0) e).1.2 (SetStateAction.fn flipVal)
    ((defState (Val.int 0) e).2)
  have h2 := defState_outside (Val.int 0) e
  exact ⟨h1.2.1.trans h2.2.1, h1.2.2.1.trans h2.2.2.1, h1.1.trans h2.1⟩

theorem runLoop_allChanges (rf : RenderFn)
    (hQ : ∀ e', e'.isRunning = true → e'.pendingUpdates = [] → (rf e').pendingUpdates ≠ [])
    (hE : ∀ e', (rf e').effectLog = e'.effectLog)
    (hO : ∀ e', (rf e').outputLog = e'.outputLog) (fuel : Nat) :
    ∀ (iterations : Nat) (e : Engine),
      (runLoop rf fuel iterations true e).2 = iterations + fuel ∧
      (runLoop rf fuel iterations true e).1.effectLog = e.effectLog ∧
      (runLoop rf fuel iterations true e).1.outputLog = e.outputLog := by
  induction fuel with
  | zero => intro iterations e; simp [runLoop]
  | succ fuel ih =>
    intro iterations e
    have hpend : (captureSnapshot iterations { (rf { e with currentHookIndex := 0, isRunning := true, pendingUpdates := [] }) with isRunning := false }).pendingUpdates ≠ [] := by
      simpa [captureSnapshot] using hQ { e with currentHookIndex := 0, isRunning := true, pendingUpdates := [] } rfl rfl
    have hemp : (captureSnapshot iterations { (rf { e with currentHookIndex := 0, isRunning := true, pendingUpdates := [] }) with isRunning := false }).pendingUpdates.isEmpty = false := by
      cases hh : (captureSnapshot iterations { (rf { e with currentHookIndex := 0, isRunning := true, pendingUpdates := [] }) with isRunning := false }).pendingUpdates.isEmpty
      · rfl
      · exact absurd (List.isEmpty_iff.mp hh) hpend
    have hstep : runLoop rf (fuel + 1) iterations true e = runLoop rf fuel (iterations + 1) true (applyPendingUpdates (captureSnapshot iterations { (rf { e with currentHookIndex := 0, isRunning := true, pendingUpdates := [] }) with isRunning := false })) := by
      simp only [runLoop, if_true, hemp, Bool.false_eq_true, if_false]
    rw [hstep]
    have := ih (iterations + 1) (applyPendingUpdates (captureSnapshot iterations { (rf { e with currentHookIndex := 0, isRunning := true, pendingUpdates := [] }) with isRunning := false }))
    refine ⟨by rw [this.1]; omega, ?_, ?_⟩
    · rw [this.2.1]
      simpa [applyPendingUpdates, captureSnapshot] using hE { e with currentHookIndex := 0, isRunning := true, pendingUpdates := [] }
    · rw [this.2.2]
      simpa [applyPendingUpdates, captureSnapshot] using hO { e with currentHookIndex := 0, isRunning := true, pendingUpdates := [] }

theorem countRender_snapshots (e : Engine) : (countRender e).snapshots = e.snapshots := by
  unfold countRender
  dsimp only
  split
  · rw [(setStateR_outside _ _ _).1, (defState_outside _ _).1]
  · rw [(defState_outside _ _).1]

/-! ### Claim theorems -/

/-- C1: the user function `count = defState(0); if count < 3 then
set(count+1)` stabilizes after exactly 4 loop passes without error; the
recorded snapshots show the state slot's value sequence `[0, 1, 2, 3]`;
and in general the number of snapshots recorded by one run equals the
number of loop passes executed (final iteration count minus starting
iteration count), for any render function that does not itself touch the
snapshot log. -/
theorem spec_C1 :
    ((runLoop countRender maxIterations 0 true engine0Fn).2 = 4 ∧
     (setFn countRender noCb engine0).2 = none ∧
     (setFn countRender noCb engine0).1.snapshots.map Snapshot.hooks =
       [[HookSnapshot.state 0 (Val.int 0)], [HookSnapshot.state 0 (Val.int 1)],
        [HookSnapshot.state 0 (Val.int 2)], [HookSnapshot.state 0 (Val.int 3)]]) ∧
    (∀ (rf : RenderFn), (∀ e', (rf e').snapshots = e'.snapshots) →
      ∀ (fuel iterations : Nat) (hc : Bool) (e : Engine),
        (runLoop rf fuel iterations hc e).1.snapshots.length =
          e.snapshots.length + ((runLoop rf fuel iterations hc e).2 - iterations)) := by
  refine ⟨⟨by decide, by decide, by decide⟩, ?_⟩
  intro rf hsnap fuel iterations hc e
  exact runLoop_snapshots_length rf hsnap fuel iterations hc e

/-- C1 witness: the general snapshot-count law applied to the concrete
count scenario. -/
theorem spec_C1_witness :
    (runLoop countRender maxIterations 0 true engine0Fn).1.snapshots.length =
      engine0Fn.snapshots.length +
        ((runLoop countRender maxIterations 0 true engine0Fn).2 - 0) :=
  spec_C1.2 countRender countRender_snapshots maxIterations 0 true engine0Fn

/-- C2: for every user function that queues at least one change on every
pass (and, being built from the capability API, does not touch the
effect/output logs), the loop runs the function exactly `maxIterations`
(1000) times, `run` returns the iteration-limit error together with the
engine exactly as the loop left it after the last applied update batch,
no effect is executed and the output callback is not invoked. -/
theorem spec_C2 (rf : RenderFn) (cbRes : Nat → Option Nat) (e : Engine)
    (hfn : e.hasRenderFn = true)
    (hQ : ∀ e', e'.isRunning = true → e'.pendingUpdates = [] → (rf e').pendingUpdates ≠ [])
    (hE : ∀ e', (rf e').effectLog = e'.effectLog)
    (hO : ∀ e', (rf e').outputLog = e'.outputLog) :
    (runLoop rf maxIterations 0 true e).2 = maxIterations ∧
    run rf cbRes e = ((runLoop rf maxIterations 0 true e).1, some RunError.maxIterationsReached) ∧
    (run rf cbRes e).1.effectLog = e.effectLog ∧
    (run rf cbRes e).1.outputLog = e.outputLog := by
  have hall := runLoop_allChanges rf hQ hE hO maxIterations 0 e
  have h2 : (runLoop rf maxIterations 0 true e).2 = maxIterations := by
    rw [hall.1]
    omega
  have hrun : run rf cbRes e =
      ((runLoop rf maxIterations 0 true e).1, some RunError.maxIterationsReached) := by
    unfold run
    simp only [hfn, if_true]
    rcases hr : runLoop rf maxIterations 0 true e with ⟨e1, its⟩
    have hits : its = maxIterations := by
      have := h2
      rw [hr] at this
      exact this
    subst hits
    simp
  refine ⟨h2, hrun, ?_, ?_⟩
  · rw [hrun]
    exact hall.2.1
  · rw [hrun]
    exact hall.2.2

/-- C2 witness: the always-flipping state scenario hits the ceiling after
exactly 1000 invocations. -/
theorem spec_C2_witness :
    (runLoop flipRender maxIterations 0 true engine0Fn).2 = maxIterations ∧
    run flipRender noCb engine0Fn =
      ((runLoop flipRender maxIterations 0 true engine0Fn).1, some RunError.maxIterationsReached) ∧
    (run flipRender noCb engine0Fn).1.effectLog = engine0Fn.effectLog ∧
    (run flipRender noCb engine0Fn).1.outputLog = engine0Fn.outputLog :=
  spec_C2 flipRender noCb engine0Fn rfl
    (fun e' h _ => flipRender_queues e' h)
    (fun e' => (flipRender_outside e').1)
    (fun e' => (flipRender_outside e').2.1)

/-- C3: a setter (or reducer dispatcher) invoked with a value identical to
the stored value leaves the engine completely unchanged — no queued
update, no re-run, whatever the running state — and the concrete
function that always sets its state slot to the current value stabilizes
after exactly one pass with one snapshot. -/
theorem spec_C3 :
    (∀ (rerun : Engine → Engine) (idx : Nat) (action : SetStateAction) (e : Engine),
        applyAction action (hookValueAt e idx) = hookValueAt e idx →
        setStateBody rerun idx action e = e) ∧
    (∀ (rerun : Engine → Engine) (action : Val) (idx : Nat) (v : Val)
        (r : Val → Val → Val) (e : Engine),
        e.hooks.get? idx = some (Hook.reducerH v r) → r v action = v →
        dispatchBody rerun idx action e = e) ∧
    ((runLoop idemRender maxIterations 0 true engine0Fn).2 = 1 ∧
     (setFn idemRender noCb engine0).1.snapshots.length = 1 ∧
     (setFn idemRender noCb engine0).2 = none) := by
  refine ⟨?_, ?_, by decide, by decide, by decide⟩
  · intro rerun idx action e h
    unfold setStateBody
    dsimp only
    rw [if_pos h]
  · intro rerun action idx v r e hget h
    unfold dispatchBody
    rw [hget]
    dsimp only
    rw [if_pos h]

/-- C3 witness: a same-value write on a concrete state slot and a
same-value dispatch on a concrete reducer slot leave the engine as is. -/
theorem spec_C3_witness :
    setStateBody (fun e' => e') 0 (SetStateAction.value (Val.int 5)) ec3 = ec3 ∧
    dispatchBody (fun e' => e') 0 (Val.int 0) ec9 = ec9 :=
  ⟨spec_C3.1 (fun e' => e') 0 (SetStateAction.value (Val.int 5)) ec3 (by decide),
   spec_C3.2.1 (fun e' => e') (Val.int 0) 0 (Val.int 4) addReducer ec9 rfl (by decide)⟩

theorem zip_any_ne_iff (d d0 : List Val) (hlen : d.length = d0.length) :
    ((d.zip d0).any (fun p => if p.1 = p.2 then false else true) = true ↔
      ∃ i, i < d.length ∧ d.get? i ≠ d0.get? i) := by
  induction d generalizing d0 with
  | nil =>
    cases d0 with
    | nil => simp
    | cons b t0 => simp at hlen
  | cons a t ih =>
    cases d0 with
    | nil => simp at hlen
    | cons b t0 =>
      have hlen' : t.length = t0.length := by simpa using hlen
      have ihh := ih t0 hlen'
      simp only [List.zip_cons_cons, List.any_cons, Bool.or_eq_true]
      constructor
      · rintro (hhead | htail)
        · have hab : a ≠ b := by
            intro hc
            rw [if_pos hc] at hhead
            exact Bool.false_ne_true hhead
          exact ⟨0, by simp, by simpa using hab⟩
        · rcases ihh.mp htail with ⟨i, hi, hne⟩
          refine ⟨i + 1, ?_, by simpa using hne⟩
          simp only [List.length_cons]
          omega
      · rintro ⟨i, hi, hne⟩
        cases i with
        | zero =>
          have hab : a ≠ b := by simpa using hne
          exact Or.inl (by rw [if_neg hab])
        | succ j =>
          have hj : j < t.length := by
            simp only [List.length_cons] at hi
            omega
          exact Or.inr (ihh.mpr ⟨j, hj, by simpa using hne⟩)

theorem depsChanged_some_iff (deps : Option (List Val)) (d0 : List Val) :
    (depsChanged deps (some d0) = true ↔
      (deps = none ∨ ∃ d, deps = some d ∧
        (d.length ≠ d0.length ∨ ∃ i, i < d.length ∧ d.get? i ≠ d0.get? i))) := by
  cases deps with
  | none => simp [depsChanged]
  | some d =>
    simp only [depsChanged]
    by_cases hlen : d.length = d0.length
    · rw [if_pos hlen, zip_any_ne_iff d d0 hlen]
      constructor
      · intro h
        exact Or.inr ⟨d, rfl, Or.inr h⟩
      · rintro (h | ⟨d', hd, h⟩)
        · exact absurd h (by simp)
        · injection hd with hd'
          subst hd'
          rcases h with h | h
          · exact absurd hlen h
          · exact h
    · rw [if_neg hlen]
      constructor
      · intro _
        exact Or.inr ⟨d, rfl, Or.inl hlen⟩
      · intro _
        rfl

theorem runEffectsGo_fst (cbRes : Nat → Option Nat) (hs : List Hook) :
    (runEffectsGo cbRes hs).1 = hs.map (fun h => (runEffectStep cbRes h).1) := by
  induction hs with
  | nil => rfl
  | cons h t ih => simp [runEffectsGo, ih]

theorem runEffectStep_deps (cbRes : Nat → Option Nat) (h : Hook) :
    hookDeps (runEffectStep cbRes h).1 = hookDeps h := by
  cases h with
  | effect cb d cl hr => cases hr <;> rfl
  | state v => rfl
  | reducerH v r => rfl
  | ref c => rfl
  | input v => rfl
  | outputObject ns k v en => rfl
  | outputArray ns k v en => rfl

theorem defEffect_revisit (cb : Nat) (deps : Option (List Val)) (cb0 : Nat)
    (deps0 : Option (List Val)) (cl : Option Nat) (hr : Bool)
    (pre post : List Hook) (e : Engine)
    (he : e.hooks = pre ++ Hook.effect cb0 deps0 cl hr :: post)
    (hidx : e.currentHookIndex = pre.length) :
    (defEffect cb deps e).hooks.get? pre.length =
      some (if depsChanged deps deps0 then Hook.effect cb deps cl false
            else Hook.effect cb deps0 cl hr) := by
  unfold defEffect
  dsimp only
  have hlen : ¬(e.hooks.length ≤ e.currentHookIndex) := by
    rw [he, hidx]
    simp [List.length_append]
  rw [if_neg hlen]
  have hget : e.hooks.get? e.currentHookIndex =
      some (Hook.effect cb0 deps0 cl hr) := by
    rw [he, hidx]
    exact get?_append_cons pre post
  rw [hget]
  dsimp only
  rw [← hidx, modifyAt_get?_self, hget]
  rfl

/-- C4: on a revisit of an effect slot whose recorded dependency list from
the previous pass is `d0`, the accessor resets `hasRun` to false (marking
the effect for re-execution) exactly when the dependencies changed; the
`depsChanged` test is true iff no list is supplied now, or the new list's
length differs from `d0`, or some element differs at the same position;
and the effect runner performs no comparison — it only maps each
pending-effect hook through `runEffectStep` (which preserves the recorded
dependency lists and runs exactly the hooks with `hasRun = false`). -/
theorem spec_C4 :
    (∀ (cb : Nat) (deps : Option (List Val)) (cb0 : Nat) (d0 : List Val)
        (cl : Option Nat) (hr : Bool) (pre post : List Hook) (e : Engine),
        e.hooks = pre ++ Hook.effect cb0 (some d0) cl hr :: post →
        e.currentHookIndex = pre.length →
        (defEffect cb deps e).hooks.get? pre.length =
          some (if depsChanged deps (some d0) then Hook.effect cb deps cl false
                else Hook.effect cb (some d0) cl hr)) ∧
    (∀ (deps : Option (List Val)) (d0 : List Val),
        depsChanged deps (some d0) = true ↔
          (deps = none ∨ ∃ d, deps = some d ∧
            (d.length ≠ d0.length ∨ ∃ i, i < d.length ∧ d.get? i ≠ d0.get? i))) ∧
    (∀ (cbRes : Nat → Option Nat) (e : Engine),
        (runEffects cbRes e).hooks = e.hooks.map (fun h => (runEffectStep cbRes h).1) ∧
        (runEffects cbRes e).hooks.map hookDeps = e.hooks.map hookDeps) := by
  refine ⟨?_, depsChanged_some_iff, ?_⟩
  · intro cb deps cb0 d0 cl hr pre post e he hidx
    exact defEffect_revisit cb deps cb0 (some d0) cl hr pre post e he hidx
  · intro cbRes e
    have h1 : (runEffects cbRes e).hooks =
        e.hooks.map (fun h => (runEffectStep cbRes h).1) := by
      unfold runEffects
      dsimp only
      rw [runEffectsGo_fst]
    refine ⟨h1, ?_⟩
    rw [h1, List.map_map]
    congr 1
    funext h
    exact runEffectStep_deps cbRes h

/-- C4 witness: revisiting the concrete effect slot with deps `[2]` after
recorded deps `[1]`, and running the effects of a concrete store. -/
theorem spec_C4_witness :
    ((defEffect 9 (some [Val.int 2]) ec4).hooks.get? 0 =
      some (if depsChanged (some [Val.int 2]) (some [Val.int 1])
            then Hook.effect 9 (some [Val.int 2]) none false
            else Hook.effect 9 (some [Val.int 1]) none true)) ∧
    (depsChanged (some [Val.int 2]) (some [Val.int 1]) = true ↔
      ((some [Val.int 2] : Option (List Val)) = none ∨
        ∃ d, (some [Val.int 2] : Option (List Val)) = some d ∧
          (d.length ≠ [Val.int 1].length ∨
            ∃ i, i < d.length ∧ d.get? i ≠ [Val.int 1].get? i))) ∧
    (runEffects noCb ec4).hooks = ec4.hooks.map (fun h => (runEffectStep noCb h).1) :=
  ⟨spec_C4.1 9 (some [Val.int 2]) 7 [Val.int 1] none true [] [] ec4 rfl rfl,
   spec_C4.2.1 (some [Val.int 2]) [Val.int 1],
   (spec_C4.2.2 noCb ec4).1⟩

/-- C5: an in-pass setter call whose computed value differs from the
stored value appends exactly the pair (slot, value computed at enqueue
time against the value visible now) to the queue; applying a queue in
enqueue order overwrites a state slot with the last value queued for it;
and the concrete two-functional-updates scenario ends with the slot at
`10` (the later enqueue, computed from the same pre-pass value `0`, wins;
the updates do not compose to `11`), stabilizing after 2 passes. -/
theorem spec_C5 :
    (∀ (rerun : Engine → Engine) (idx : Nat) (f : Val → Val) (e : Engine),
        e.isRunning = true →
        f (hookValueAt e idx) ≠ hookValueAt e idx →
        setStateBody rerun idx (SetStateAction.fn f) e =
          { e with pendingUpdates := e.pendingUpdates ++ [(idx, f (hookValueAt e idx))] }) ∧
    (∀ (q : List (Nat × Val)) (hs : List Hook) (idx : Nat) (w : Val),
        hs.get? idx = some (Hook.state w) →
        (applyQ hs q).get? idx = some (Hook.state (lastQueued q idx w))) ∧
    ((setFn twoSetRender noCb engine0).1.hooks = [Hook.state (Val.int 10)] ∧
     (runLoop twoSetRender maxIterations 0 true engine0Fn).2 = 2 ∧
     (setFn twoSetRender noCb engine0).2 = none) := by
  refine ⟨?_, applyQ_get?_state, by rfl, by decide, by decide⟩
  intro rerun idx f e hrun hne
  have hne' : applyAction (SetStateAction.fn f) (hookValueAt e idx) ≠ hookValueAt e idx := hne
  unfold setStateBody
  dsimp only
  rw [if_neg hne', if_pos hrun]
  rfl

/-- C5 witness: the queue law at a concrete engine and a concrete queue
with two updates to one slot. -/
theorem spec_C5_witness :
    (setStateBody (fun e' => e') 0 (SetStateAction.fn (fun v => vadd v 1)) ec3 =
      { ec3 with pendingUpdates :=
          ec3.pendingUpdates ++ [(0, vadd (hookValueAt ec3 0) 1)] }) ∧
    (applyQ [Hook.state (Val.int 0)] [(0, Val.int 1), (0, Val.int 10)]).get? 0 =
      some (Hook.state (lastQueued [(0, Val.int 1), (0, Val.int 10)] 0 (Val.int 0))) :=
  ⟨spec_C5.1 (fun e' => e') 0 (fun v => vadd v 1) ec3 rfl (by decide),
   spec_C5.2.1 [(0, Val.int 1), (0, Val.int 10)] [Hook.state (Val.int 0)] 0 (Val.int 0) rfl⟩

/-- C6: supplying new input discards exactly the output-entry slots — the
remaining hooks are the non-output slots, each preserved identically (so
every State/Reducer/Ref/Effect/Input slot's stored value is unchanged) —
and the concrete X-then-Y scenario produces one output-callback invocation
per completed run, the last two reflecting inputs `10` and `20` with no
leftover entries. -/
theorem spec_C6 :
    (∀ e : Engine,
        (clearOutputHooks e).hooks = e.hooks.filter (fun h => !(isOutputHook h)) ∧
        (∀ h, h ∈ e.hooks → isOutputHook h = false → h ∈ (clearOutputHooks e).hooks) ∧
        (∀ h, h ∈ (clearOutputHooks e).hooks → isOutputHook h = false) ∧
        (clearOutputHooks e).inputValue = e.inputValue ∧
        (clearOutputHooks e).snapshots = e.snapshots) ∧
    (c6s3.1.outputLog =
      [[("ns", [("k", OutVal.scalar Val.undefV)])],
       [("ns", [("k", OutVal.scalar (Val.int 10))])],
       [("ns", [("k", OutVal.scalar (Val.int 20))])]] ∧
     c6s1.2 = none ∧ c6s2.2 = none ∧ c6s3.2 = none) := by
  refine ⟨?_, by decide, by decide, by decide, by decide⟩
  intro e
  refine ⟨rfl, ?_, ?_, rfl, rfl⟩
  · intro h hmem hout
    exact List.mem_filter.mpr ⟨hmem, by rw [hout]; rfl⟩
  · intro h hmem
    have hm := List.mem_filter.mp hmem
    simpa using hm.2

/-- C6 witness: clearing a concrete mixed store keeps the state slot. -/
theorem spec_C6_witness :
    (clearOutputHooks ec6).hooks = ec6.hooks.filter (fun h => !(isOutputHook h)) ∧
    Hook.state (Val.int 1) ∈ (clearOutputHooks ec6).hooks :=
  ⟨(spec_C6.1 ec6).1,
   (spec_C6.1 ec6).2.1 (Hook.state (Val.int 1)) (List.mem_cons_self _ _) rfl⟩

/-- C9: a revisit of an existing reducer slot returns the stored value and
leaves the whole hook store — in particular the stored reducer function —
untouched, whatever reducer function and initial state are passed;
dispatch applies exactly the stored reducer to the stored value; by
contrast, a revisit of an effect slot always replaces the stored
callback with the newly passed one. -/
theorem spec_C9 :
    (∀ (r2 : Val → Val → Val) (init2 : Val) (pre : List Hook) (v : Val)
        (r1 : Val → Val → Val) (post : List Hook) (e : Engine),
        e.hooks = pre ++ Hook.reducerH v r1 :: post →
        e.currentHookIndex = pre.length →
        defReducer r2 init2 e =
          ((v, pre.length), { e with currentHookIndex := pre.length + 1 })) ∧
    (∀ (rerun : Engine → Engine) (idx : Nat) (a v : Val) (r1 : Val → Val → Val)
        (e : Engine),
        e.hooks.get? idx = some (Hook.reducerH v r1) →
        e.isRunning = true → r1 v a ≠ v →
        dispatchBody rerun idx a e =
          { e with pendingUpdates := e.pendingUpdates ++ [(idx, r1 v a)] }) ∧
    (∀ (cb2 : Nat) (deps : Option (List Val)) (pre : List Hook) (cb1 : Nat)
        (d1 : Option (List Val)) (cl : Option Nat) (hr : Bool) (post : List Hook)
        (e : Engine),
        e.hooks = pre ++ Hook.effect cb1 d1 cl hr :: post →
        e.currentHookIndex = pre.length →
        ∃ d' hr', (defEffect cb2 deps e).hooks.get? pre.length =
          some (Hook.effect cb2 d' cl hr')) := by
  refine ⟨?_, ?_, ?_⟩
  · intro r2 init2 pre v r1 post e he hidx
    unfold defReducer
    dsimp only
    rw [hidx]
    have hlen : ¬(e.hooks.length ≤ pre.length) := by
      rw [he]
      simp [List.length_append]
    rw [if_neg hlen]
    have hget : e.hooks.get? pre.length = some (Hook.reducerH v r1) := by
      rw [he]
      exact get?_append_cons pre post
    unfold hookValueAt
    dsimp only
    rw [hget]
    rfl
  · intro rerun idx a v r1 e hget hrun hne
    unfold dispatchBody
    rw [hget]
    dsimp only
    rw [if_neg hne, if_pos hrun]
  · intro cb2 deps pre cb1 d1 cl hr post e he hidx
    rw [defEffect_revisit cb2 deps cb1 d1 cl hr pre post e he hidx]
    by_cases hch : depsChanged deps d1 = true
    · rw [if_pos hch]
      exact ⟨deps, false, rfl⟩
    · rw [if_neg hch]
      exact ⟨d1, hr, rfl⟩

/-- C9 witness: revisiting the concrete reducer slot with a different
reducer (`subReducer`) neither replaces the stored `addReducer` nor its
value, and dispatch still computes with `addReducer`; an effect revisit
replaces the callback. -/
theorem spec_C9_witness :
    (defReducer subReducer (Val.int 0) ec9 =
      ((Val.int 4, 0), { ec9 with currentHookIndex := 1 })) ∧
    (dispatchBody (fun e' => e') 0 (Val.int 2) ec9 =
      { ec9 with pendingUpdates := ec9.pendingUpdates ++ [(0, addReducer (Val.int 4) (Val.int 2))] }) ∧
    (∃ d' hr', (defEffect 9 (some [Val.int 2]) ec4).hooks.get? 0 =
      some (Hook.effect 9 d' none hr')) :=
  ⟨spec_C9.1 subReducer (Val.int 0) [] (Val.int 4) addReducer [] ec9 rfl rfl,
   spec_C9.2.1 (fun e' => e') 0 (Val.int 2) (Val.int 4) addReducer ec9 rfl rfl (by decide),
   spec_C9.2.2 9 (some [Val.int 2]) [] 7 (some [Val.int 1]) none true [] ec4 rfl rfl⟩

/-- C10 counterexample: with an enabled overwrite entry whose value is the
falsy `0`, a later enabled append entry on the same namespace/key does
not leave the overwrite value in place — the aggregator replaces it with
a fresh one-element sequence. -/
theorem spec_C10_cex :
    buildOutput e10falsy = [("a", [("k", OutVal.arr [Val.int 5])])] ∧
    getKey (buildOutput e10falsy) "a" "k" ≠ some (OutVal.scalar (Val.int 0)) := by
  exact ⟨by decide, by decide⟩

/-- C10 (amended): when the value already aggregated at the namespace/key
is a truthy non-sequence value (set by an earlier enabled overwrite-mode
entry), a later enabled append-mode entry is silently dropped: the fold
step returns the mapping unchanged (no error, no sequence created); a
falsy overwrite value (`0`/`undefined`) is instead replaced by a fresh
one-element sequence.  Concretely, overwrite `7` then append `5` yields
`{a: {k: 7}}`. -/
theorem spec_C10 :
    (∀ (out : Output) (ns k : String) (w v : Val),
        getKey out ns k = some (OutVal.scalar w) → truthy w = true →
        outputStep out (Hook.outputArray ns k v true) = out) ∧
    buildOutput e10truthy = [("a", [("k", OutVal.scalar (Val.int 7))])] := by
  refine ⟨?_, by decide⟩
  intro out ns k w v hget htru
  unfold outputStep
  dsimp only
  rw [hget]
  dsimp only
  rw [if_pos htru, hget]

/-- C10 witness: the truthy-scalar drop law at a concrete mapping. -/
theorem spec_C10_witness :
    outputStep [("a", [("k", OutVal.scalar (Val.int 7))])]
        (Hook.outputArray "a" "k" (Val.int 5) true) =
      [("a", [("k", OutVal.scalar (Val.int 7))])] :=
  spec_C10.1 [("a", [("k", OutVal.scalar (Val.int 7))])] "a" "k" (Val.int 7) (Val.int 5)
    (by decide) (by decide)

theorem invoke_registry (m : String) (s : ExtState) :
    (invokeCapability m s).registry = s.registry := by
  unfold invokeCapability
  split
  · split <;> rfl
  · rfl

theorem invoke_countInv (name m : String) (s : ExtState)
    (hinv : s.initLog.count name = (if name ∈ s.initDone then 1 else 0)) :
    (invokeCapability m s).initLog.count name =
      (if name ∈ (invokeCapability m s).initDone then 1 else 0) := by
  unfold invokeCapability
  cases hf : s.registry.find? (fun p => p.1 = m) with
  | none => simpa using hinv
  | some pd =>
    dsimp only
    split
    · rename_i hcond
      by_cases hm : m = name
      · subst hm
        have hnot : ¬(m ∈ s.initDone) := hcond.2
        dsimp only
        rw [List.count_append, hinv, if_neg hnot, if_pos (by simp [List.mem_append])]
        simp
      · dsimp only
        rw [List.count_append, hinv]
        have hc : List.count name [m] = 0 := by
          simp [List.count_cons]
          intro hc
          exact hm hc
        rw [hc]
        have hmem : (name ∈ s.initDone ++ [m]) ↔ name ∈ s.initDone := by
          simp [List.mem_append]
          intro hc
          exact absurd hc.symm hm
        by_cases hd : name ∈ s.initDone
        · rw [if_pos hd, if_pos (hmem.mpr hd)]
        · rw [if_neg hd, if_neg (fun hx => hd (hmem.mp hx))]
        
    · exact hinv

theorem runPass_countInv (name : String) (names : List String) (s : ExtState)
    (hinv : s.initLog.count name = (if name ∈ s.initDone then 1 else 0)) :
    (runPass names s).initLog.count name =
      (if name ∈ (runPass names s).initDone then 1 else 0) := by
  induction names generalizing s with
  | nil => exact hinv
  | cons n ns ih => exact ih (invokeCapability n s) (invoke_countInv name n s hinv)

theorem runSeq_countInv (name : String) (runs : List (List String)) (s : ExtState)
    (hinv : s.initLog.count name = (if name ∈ s.initDone then 1 else 0)) :
    (runSeq runs s).initLog.count name =
      (if name ∈ (runSeq runs s).initDone then 1 else 0) := by
  induction runs generalizing s with
  | nil => exact hinv
  | cons r rs ih => exact ih (runPass r s) (runPass_countInv name r s hinv)

theorem invoke_done_mono (name m : String) (s : ExtState)
    (h : name ∈ s.initDone) : name ∈ (invokeCapability m s).initDone := by
  unfold invokeCapability
  split
  · split
    · exact List.mem_append.mpr (Or.inl h)
    · exact h
  · exact h

theorem runPass_done_mono (name : String) (names : List String) (s : ExtState)
    (h : name ∈ s.initDone) : name ∈ (runPass names s).initDone := by
  induction names generalizing s with
  | nil => exact h
  | cons n ns ih => exact ih (invokeCapability n s) (invoke_done_mono name n s h)

theorem runSeq_done_mono (name : String) (runs : List (List String)) (s : ExtState)
    (h : name ∈ s.initDone) : name ∈ (runSeq runs s).initDone := by
  induction runs generalizing s with
  | nil => exact h
  | cons r rs ih => exact ih (runPass r s) (runPass_done_mono name r s h)

theorem runPass_registry (names : List String) (s : ExtState) :
    (runPass names s).registry = s.registry := by
  induction names generalizing s with
  | nil => rfl
  | cons n ns ih => rw [runPass] at *; simpa [invoke_registry] using ih (invokeCapability n s)

theorem invoke_done_self (name : String) (s : ExtState) (d : ExtDescr)
    (hf : s.registry.find? (fun p => p.1 = name) = some (name, d))
    (hd : d.hasInit = true) : name ∈ (invokeCapability name s).initDone := by
  unfold invokeCapability
  rw [hf]
  dsimp only
  by_cases hm : name ∈ s.initDone
  · rw [if_neg (fun hc => hc.2 hm)]
    exact hm
  · rw [if_pos ⟨hd, hm⟩]
    exact List.mem_append.mpr (Or.inr (List.mem_cons_self _ _))

theorem runPass_done (name : String) (names : List String) (s : ExtState)
    (d : ExtDescr) (hf : s.registry.find? (fun p => p.1 = name) = some (name, d))
    (hd : d.hasInit = true) (hmem : name ∈ names) :
    name ∈ (runPass names s).initDone := by
  induction names generalizing s with
  | nil => cases hmem
  | cons n ns ih =>
    rcases List.mem_cons.mp hmem with hh | ht
    · subst hh
      exact runPass_done_mono name ns (invokeCapability name s)
        (invoke_done_self name s d hf hd)
    · exact ih (invokeCapability n s) (by rw [invoke_registry]; exact hf) ht

theorem runSeq_done (name : String) (runs : List (List String)) (s : ExtState)
    (d : ExtDescr) (hf : s.registry.find? (fun p => p.1 = name) = some (name, d))
    (hd : d.hasInit = true) (hused : ∃ r ∈ runs, name ∈ r) :
    name ∈ (runSeq runs s).initDone := by
  induction runs generalizing s with
  | nil => rcases hused with ⟨r, hr, _⟩; cases hr
  | cons r rs ih =>
    rcases hused with ⟨r', hr', hmem⟩
    rcases List.mem_cons.mp hr' with hh | ht
    · subst hh
      exact runSeq_done_mono name rs (runPass r' s) (runPass_done name r' s d hf hd hmem)
    · exact ih (runPass r s) (by rw [runPass_registry]; exact hf) ⟨r', ht, hmem⟩

/-- C8 (spec-modelled, `Base.extend` is not in the sources): for every
extension registered with an `init` callback, across any sequence of runs
in which the capability is invoked at least once, `init` runs exactly once
— the init log records the name exactly one time and the name is marked
initialized. -/
theorem spec_C8 (name : String) (runs : List (List String)) (s0 : ExtState)
    (hlog : s0.initLog = []) (hdone : s0.initDone = [])
    (d : ExtDescr)
    (hf : s0.registry.find? (fun p => p.1 = name) = some (name, d))
    (hd : d.hasInit = true)
    (hused : ∃ r ∈ runs, name ∈ r) :
    (runSeq runs s0).initLog.count name = 1 ∧
    name ∈ (runSeq runs s0).initDone := by
  have hdone2 := runSeq_done name runs s0 d hf hd hused
  have hinv0 : s0.initLog.count name = (if name ∈ s0.initDone then 1 else 0) := by
    rw [hlog, hdone]
    simp
  have hinv := runSeq_countInv name runs s0 hinv0
  rw [hinv, if_pos hdone2]
  exact ⟨rfl, hdone2⟩

/-- C8 witness: the `defTracked` extension used across three re-runs
invokes `init` exactly once. -/
theorem spec_C8_witness :
    (runSeq [["defTracked"], ["defTracked"], ["defTracked"]] ext0).initLog.count "defTracked" = 1 ∧
    "defTracked" ∈ (runSeq [["defTracked"], ["defTracked"], ["defTracked"]] ext0).initDone :=
  spec_C8 "defTracked" [["defTracked"], ["defTracked"], ["defTracked"]] ext0 rfl rfl
    { hasInit := true } rfl rfl
    ⟨["defTracked"], List.mem_cons_self _ _, List.mem_cons_self _ _⟩

theorem get?_some_lt {α : Type} {l : List α} {n : Nat} {x : α}
    (h : l.get? n = some x) : n < l.length := by
  rcases List.get?_eq_some.mp h with ⟨hlt, _⟩
  exact hlt

theorem deepCopyL_length (fuel : Nat) :
    ∀ (h : Heap) (vs : List JVal) (h2 : Heap) (vs2 : List JVal),
      deepCopyL fuel h vs = some (h2, vs2) → vs2.length = vs.length := by
  induction fuel with
  | zero => intro h vs h2 vs2 hcp; cases hcp
  | succ fuel ih =>
    intro h vs h2 vs2 hcp
    cases vs with
    | nil =>
      simp only [deepCopyL] at hcp
      cases hcp
      rfl
    | cons v vs =>
      cases v with
      | prim n =>
        simp only [deepCopyL] at hcp
        cases hrec : deepCopyL fuel h vs with
        | none => rw [hrec] at hcp; cases hcp
        | some r =>
          rw [hrec] at hcp
          cases hcp
          simpa using ih h vs r.1 r.2 hrec
      | ref a =>
        simp only [deepCopyL] at hcp
        cases hga : h.get? a with
        | none => rw [hga] at hcp; cases hcp
        | some obj =>
          rw [hga] at hcp
          dsimp only at hcp
          cases hrec1 : deepCopyL fuel h (childVals obj) with
          | none => rw [hrec1] at hcp; cases hcp
          | some r1 =>
            rcases r1 with ⟨h1, ws⟩
            rw [hrec1] at hcp
            dsimp only at hcp
            cases hrec2 : deepCopyL fuel (h1 ++ [rebuild obj ws]) vs with
            | none =>
              rw [hrec2] at hcp
              cases hcp
            | some r2 =>
              rcases r2 with ⟨h3, vs3⟩
              rw [hrec2] at hcp
              dsimp only at hcp
              cases hcp
              simpa using ih _ vs _ _ hrec2

theorem keysPrimL_append (fuel : Nat) :
    ∀ (h : Heap) (vs : List JVal) (ext : Heap),
      keysPrimL fuel h vs = true → keysPrimL fuel (h ++ ext) vs = true := by
  induction fuel with
  | zero => intro h vs ext hkp; cases hkp
  | succ fuel ih =>
    intro h vs ext hkp
    cases vs with
    | nil => rfl
    | cons v vs =>
      cases v with
      | prim n =>
        simp only [keysPrimL] at hkp
        simpa only [keysPrimL] using ih h vs ext hkp
      | ref a =>
        simp only [keysPrimL] at hkp
        cases hga : h.get? a with
        | none => rw [hga] at hkp; cases hkp
        | some obj =>
          rw [hga] at hkp
          have hga2 : (h ++ ext).get? a = some obj := by
            rw [List.get?_append (get?_some_lt hga)]
            exact hga
          simp only [keysPrimL, hga2]
          simp only [Bool.and_eq_true] at hkp ⊢
          exact ⟨⟨hkp.1.1, ih h (childVals obj) ext hkp.1.2⟩, ih h vs ext hkp.2⟩

theorem refsL_nil_of_prim (ks : List JVal)
    (h : ks.all (fun k => (refOf k).isNone) = true) : refsL ks = [] := by
  induction ks with
  | nil => rfl
  | cons k ks ih =>
    simp only [List.all_cons, Bool.and_eq_true] at h
    cases k with
    | prim n => simpa [refsL, List.filterMap_cons, refOf] using ih h.2
    | ref a => simp [refOf] at h

theorem keyVals_rebuild (obj : JObj) (ws : List JVal)
    (hw : ws.length = (childVals obj).length) :
    keyVals (rebuild obj ws) = keyVals obj := by
  cases obj with
  | arr es => rfl
  | setObj es => rfl
  | dateObj t => rfl
  | mapObj ps =>
    simp only [rebuild, keyVals]
    rw [List.map_fst_zip]
    simp only [childVals, List.length_map] at hw
    simp [hw]
  | plain fs => rfl

theorem childVals_rebuild (obj : JObj) (ws : List JVal)
    (hw : ws.length = (childVals obj).length) :
    childVals (rebuild obj ws) = ws := by
  cases obj with
  | arr es => rfl
  | setObj es => rfl
  | dateObj t =>
    simp only [childVals] at hw
    simpa [rebuild, childVals] using List.length_eq_zero.mp hw
  | mapObj ps =>
    simp only [rebuild, childVals]
    rw [List.map_snd_zip]
    simp only [childVals, List.length_map] at hw
    simp [hw]
  | plain fs =>
    simp only [rebuild, childVals]
    rw [List.map_snd_zip]
    simp only [childVals, List.length_map] at hw
    simp [hw]

theorem objRefs_rebuild (obj : JObj) (ws : List JVal)
    (hw : ws.length = (childVals obj).length) :
    objRefs (rebuild obj ws) = refsL (keyVals obj) ++ refsL ws := by
  unfold objRefs refsL
  rw [List.filterMap_append, keyVals_rebuild obj ws hw, childVals_rebuild obj ws hw]

theorem deepCopyL_fresh (fuel : Nat) :
    ∀ (h : Heap) (vs : List JVal) (h2 : Heap) (vs2 : List JVal),
      keysPrimL fuel h vs = true →
      deepCopyL fuel h vs = some (h2, vs2) →
      (∃ ext, h2 = h ++ ext) ∧
      (∀ r ∈ refsL vs2, h.length ≤ r) ∧
      (∀ i ob, h.length ≤ i → h2.get? i = some ob → ∀ r ∈ objRefs ob, h.length ≤ r) := by
  induction fuel with
  | zero => intro h vs h2 vs2 hkp hcp; cases hcp
  | succ fuel ih =>
    intro h vs h2 vs2 hkp hcp
    cases vs with
    | nil =>
      simp only [deepCopyL] at hcp
      cases hcp
      refine ⟨⟨[], by simp⟩, ?_, ?_⟩
      · intro r hr
        simp [refsL] at hr
      · intro i ob hi hget r hr
        exact absurd (get?_some_lt hget) (by omega)
    | cons v vs =>
      cases v with
      | prim n =>
        simp only [deepCopyL] at hcp
        simp only [keysPrimL] at hkp
        cases hrec : deepCopyL fuel h vs with
        | none => rw [hrec] at hcp; cases hcp
        | some r =>
          rcases r with ⟨h', vs'⟩
          rw [hrec] at hcp
          simp only [Option.map_some'] at hcp
          rcases ih h vs h' vs' hkp hrec with ⟨hext, hrefs, hclo⟩
          cases hcp
          refine ⟨hext, ?_, hclo⟩
          intro r hr
          exact hrefs r (by simpa [refsL, List.filterMap_cons, refOf] using hr)
      | ref a =>
        simp only [deepCopyL] at hcp
        simp only [keysPrimL] at hkp
        cases hga : h.get? a with
        | none => rw [hga] at hkp; cases hkp
        | some obj =>
          rw [hga] at hcp
          rw [hga] at hkp
          dsimp only at hcp
          simp only [Bool.and_eq_true] at hkp
          obtain ⟨⟨hkeys, hkpc⟩, hkpvs⟩ := hkp
          cases hrec1 : deepCopyL fuel h (childVals obj) with
          | none => rw [hrec1] at hcp; cases hcp
          | some r1 =>
            rcases r1 with ⟨h1, ws⟩
            rw [hrec1] at hcp
            dsimp only at hcp
            rcases ih h (childVals obj) h1 ws hkpc hrec1 with ⟨⟨ext1, hext1⟩, hrefs1, hclo1⟩
            have hw : ws.length = (childVals obj).length :=
              deepCopyL_length fuel h (childVals obj) h1 ws hrec1
            have hkpvs2 : keysPrimL fuel (h1 ++ [rebuild obj ws]) vs = true := by
              rw [hext1, List.append_assoc]
              exact keysPrimL_append fuel h vs (ext1 ++ [rebuild obj ws]) hkpvs
            cases hrec2 : deepCopyL fuel (h1 ++ [rebuild obj ws]) vs with
            | none => rw [hrec2] at hcp; cases hcp
            | some r2 =>
              rcases r2 with ⟨h3, vs3⟩
              rw [hrec2] at hcp
              dsimp only at hcp
              cases hcp
              rcases ih (h1 ++ [rebuild obj ws]) vs _ _ hkpvs2 hrec2 with
                ⟨⟨ext2, hext2⟩, hrefs2, hclo2⟩
              have hlen1 : h.length ≤ h1.length := by
                rw [hext1]
                simp
              have hlen2 : h.length ≤ (h1 ++ [rebuild obj ws]).length := by
                simp
                omega
              refine ⟨⟨ext1 ++ [rebuild obj ws] ++ ext2, ?_⟩, ?_, ?_⟩
              · rw [hext2, hext1]
                simp [List.append_assoc]
              · intro r hr
                simp only [refsL, List.filterMap_cons, refOf] at hr
                rcases List.mem_cons.mp hr with hh | ht
                · subst hh
                  exact hlen1
                · exact le_trans hlen2 (hrefs2 r (by simpa [refsL] using ht))
              · intro i ob hi hget r hr
                by_cases hi1 : i < h1.length
                · have hg1 : h1.get? i = some ob := by
                    rw [hext2] at hget
                    rw [List.get?_append (by simp; omega)] at hget
                    rw [List.get?_append hi1] at hget
                    exact hget
                  exact hclo1 i ob hi hg1 r hr
                · by_cases hi2 : i = h1.length
                  · subst hi2
                    have hg1 : (h1 ++ [rebuild obj ws]).get? h1.length =
                        some (rebuild obj ws) := List.get?_concat_length h1 _
                    have hob : ob = rebuild obj ws := by
                      rw [hext2, List.get?_append (by simp)] at hget
                      rw [hg1] at hget
                      injection hget with hh
                      exact hh.symm
                    subst hob
                    rw [objRefs_rebuild obj ws hw] at hr
                    rcases List.mem_append.mp hr with hk | hc
                    · rw [refsL_nil_of_prim (keyVals obj) hkeys] at hk
                      cases hk
                    · exact hrefs1 r hc
                  · have hi3 : (h1 ++ [rebuild obj ws]).length ≤ i := by
                      simp
                      omega
                    exact le_trans hlen2 (hclo2 i ob hi3 hget r hr)

theorem refsL_cons_prim (m : Int) (vs : List JVal) :
    refsL (JVal.prim m :: vs) = refsL vs := rfl

theorem refsL_cons_ref (a : Nat) (vs : List JVal) :
    refsL (JVal.ref a :: vs) = a :: refsL vs := rfl

theorem denoteL_set_low (n : Nat) (h : Heap) (a : Nat) (o : JObj)
    (ha : a < n)
    (hclo : ∀ i ob, n ≤ i → h.get? i = some ob → ∀ r ∈ objRefs ob, n ≤ r) :
    ∀ (df : Nat) (vs : List JVal),
      (∀ r ∈ refsL vs, n ≤ r) →
      denoteL df (h.set a o) vs = denoteL df h vs := by
  intro df
  induction df with
  | zero => intro vs _; rfl
  | succ df ih =>
    intro vs hrefs
    cases vs with
    | nil => rfl
    | cons v vs =>
      cases v with
      | prim m =>
        simp only [denoteL]
        rw [ih vs (fun r hr => hrefs r (by rw [refsL_cons_prim]; exact hr))]
      | ref rr =>
        have hrn : n ≤ rr := hrefs rr (by rw [refsL_cons_ref]; exact List.mem_cons_self _ _)
        have hane : a ≠ rr := by omega
        simp only [denoteL]
        rw [List.get?_set_ne o h hane]
        cases hgr : h.get? rr with
        | none => rfl
        | some ob =>
          dsimp only
          have hob := hclo rr ob hrn hgr
          have hkeys : ∀ r ∈ refsL (keyVals ob), n ≤ r := by
            intro r hr
            refine hob r ?_
            simp only [objRefs, refsL, List.filterMap_append, List.mem_append]
            exact Or.inl (by simpa [refsL] using hr)
          have hchild : ∀ r ∈ refsL (childVals ob), n ≤ r := by
            intro r hr
            refine hob r ?_
            simp only [objRefs, refsL, List.filterMap_append, List.mem_append]
            exact Or.inr (by simpa [refsL] using hr)
          have htail : ∀ r ∈ refsL vs, n ≤ r := by
            intro r hr
            exact hrefs r (by rw [refsL_cons_ref]; exact List.mem_cons_of_mem _ hr)
          rw [ih (keyVals ob) hkeys, ih (childVals ob) hchild, ih vs htail]

/-- C7 counterexample: the claim fails as stated.  First, `serializeHook`
copies an effect's dependency list with a shallow spread, so the snapshot
shares the list's elements with the live store: mutating the array object
referenced by a dependency element changes the snapshot's recorded
denotation.  Second, `deepCopy` does not clone `Map` keys, so mutating an
object used as a mapping key changes a previously captured copy. -/
theorem spec_C7_cex :
    (serializeEffectDeps depsLive = depsLive ∧
     denoteL 3 heap7 (serializeEffectDeps depsLive) = some [PureVal.parr [PureVal.prim 1]] ∧
     denoteL 3 heap7m (serializeEffectDeps depsLive) = some [PureVal.parr [PureVal.prim 2]] ∧
     denoteL 3 heap7m (serializeEffectDeps depsLive) ≠
       denoteL 3 heap7 (serializeEffectDeps depsLive)) ∧
    (deepCopyL 4 heap7map [JVal.ref 1] =
       some (heap7map ++ [JObj.mapObj [(JVal.ref 0, JVal.prim 9)]], [JVal.ref 2]) ∧
     denoteL 4 ((heap7map ++ [JObj.mapObj [(JVal.ref 0, JVal.prim 9)]]).set 0
         (JObj.arr [JVal.prim 2])) [JVal.ref 2] ≠
       denoteL 4 (heap7map ++ [JObj.mapObj [(JVal.ref 0, JVal.prim 9)]]) [JVal.ref 2]) := by
  refine ⟨⟨rfl, rfl, rfl, ?_⟩, rfl, ?_⟩
  · intro hc
    have e1 : denoteL 3 heap7m (serializeEffectDeps depsLive) =
        some [PureVal.parr [PureVal.prim 2]] := rfl
    have e2 : denoteL 3 heap7 (serializeEffectDeps depsLive) =
        some [PureVal.parr [PureVal.prim 1]] := rfl
    rw [e1, e2] at hc
    simp at hc
  · intro hc
    have e1 : denoteL 4 ((heap7map ++ [JObj.mapObj [(JVal.ref 0, JVal.prim 9)]]).set 0
        (JObj.arr [JVal.prim 2])) [JVal.ref 2] =
        some [PureVal.pmap [(PureVal.parr [PureVal.prim 2], PureVal.prim 9)]] := rfl
    have e2 : denoteL 4 (heap7map ++ [JObj.mapObj [(JVal.ref 0, JVal.prim 9)]]) [JVal.ref 2] =
        some [PureVal.pmap [(PureVal.parr [PureVal.prim 1], PureVal.prim 9)]] := rfl
    rw [e1, e2] at hc
    simp at hc

/-- C7 (amended): a snapshot value produced by `deepCopy` is independently
owned as long as every `Map` key reachable from it is primitive: the copy
lives entirely in freshly allocated heap cells, so mutating any
pre-existing cell (any object reachable from the live store before the
copy, at whatever nesting depth inside sequences, mappings, sets,
date-likes or plain objects) leaves the copy's denotation unchanged at
every observation depth.  Excluded by the counterexample: elements of
effect dependency lists (spread-copied, shared) and `Map` keys (shared). -/
theorem spec_C7 (fuel df : Nat) (h h' : Heap) (v v' : JVal) (a : Nat) (o : JObj)
    (hkp : keysPrimL fuel h [v] = true)
    (hcp : deepCopyL fuel h [v] = some (h', [v']))
    (ha : a < h.length) :
    denoteL df (h'.set a o) [v'] = denoteL df h' [v'] := by
  rcases deepCopyL_fresh fuel h [v] h' [v'] hkp hcp with ⟨⟨ext, hext⟩, hrefs, hclo⟩
  exact denoteL_set_low h.length h' a o ha hclo df [v'] hrefs

/-- C7 witness: copying the array `[1]`, then mutating the original cell,
leaves the copy's denotation unchanged. -/
theorem spec_C7_witness :
    denoteL 5 (([JObj.arr [JVal.prim 1], JObj.arr [JVal.prim 1]] : Heap).set 0
        (JObj.arr [JVal.prim 2])) [JVal.ref 1] =
      denoteL 5 ([JObj.arr [JVal.prim 1], JObj.arr [JVal.prim 1]] : Heap) [JVal.ref 1] :=
  spec_C7 3 5 heap7 [JObj.arr [JVal.prim 1], JObj.arr [JVal.prim 1]]
    (JVal.ref 0) (JVal.ref 1) 0 (JObj.arr [JVal.prim 2])
    (by decide) (by decide) (by decide)
